import Mathlib

/-
Verification of `deps/host_libs/update_shared_libs.py`.

Shallow embedding of the core algorithms of the script:
  * the symlink-resolution loop of `SharedObject.__init__`,
  * `SharedObject.merge` and `SharedObjectStore.__setitem__`,
  * the ELF-type dispatch and the dependency-graph portion of `process_file`,
  * `check_for_collisions`,
  * `potential_labels` / `assign_labels`.

Absolute filesystem paths are modelled as their component lists
(`pathlib.Path.parts` without the leading root separator); the filesystem
itself is a finite symlink table threaded explicitly.  Fallible code
returns `Option`, with `none` standing for a raised exception (or, for the
fuel-indexed resolver, nontermination on a cyclic filesystem — the Python
loop diverges there too).
-/

namespace HostLibs

/-- An absolute path, as its list of components (no root separator). -/
abbrev FsPath := List String

/-- First-match association lookup, the behaviour of a Python `dict`
access keyed by structural equality. -/
def assocFind {α β : Type} [DecidableEq α] : List (α × β) → α → Option β
  | [], _ => none
  | (k, v) :: rest, a => if k = a then some v else assocFind rest a

/-- Remove the (first, hence only for nodup keys) binding of a key:
Python `del d[k]`. -/
def assocErase {α β : Type} [DecidableEq α] : List (α × β) → α → List (α × β)
  | [], _ => []
  | (k, v) :: rest, a => if k = a then rest else (k, v) :: assocErase rest a

/-- A symlink's target as returned by `Path.readlink()`: absolute, or
relative to the symlink's directory. -/
inductive LinkTarget where
  | abs (p : FsPath)
  | rel (segs : List String)
deriving DecidableEq

/-- The filesystem as seen by the resolver: a finite symlink table.
A path is a symlink exactly when it has an entry. -/
structure FS where
  links : List (FsPath × LinkTarget)
deriving DecidableEq

/-- `Path.is_symlink()` against the modelled filesystem. -/
def is_symlink (fs : FS) (p : FsPath) : Bool := (assocFind fs.links p).isSome

/-- `os.path.normpath` on the components of an absolute path: drops `.`
and empty segments, and lets `..` cancel the preceding component (`..` at
the root is dropped, as `normpath` does for absolute paths). -/
def normpathAux : List String → List String → List String
  | acc, [] => acc.reverse
  | acc, c :: rest =>
    if c = "." ∨ c = "" then normpathAux acc rest
    else if c = ".." then
      match acc with
      | [] => normpathAux [] rest
      | _ :: as => normpathAux as rest
    else normpathAux (c :: acc) rest

/-- `os.path.normpath(os.path.join(path.parent, link))` for a relative
link target. -/
def joinNorm (p : FsPath) (segs : List String) : FsPath :=
  normpathAux [] (p.dropLast ++ segs)

/-- The data computed by the symlink walk of `SharedObject.__init__`:
the final (canonical) path, the symlinks traversed in order, the
fuzziness flag, and the fuzzy-set entries newly marked as used. -/
structure ResolveResult where
  canonical : FsPath
  aliases : List FsPath
  is_fuzzy : Bool
  fuzzy_used : List FsPath
deriving DecidableEq

/-- Embedding of the `while path.is_symlink():` loop of
`SharedObject.__init__` (source lines 189-215).  Each iteration: if the
current path is not a symlink, stop (canonical); if it is a symlink in
the fuzzy set, mark that entry used and stop fuzzy at the current path;
otherwise record the path as an alias and follow the link (relative
targets resolved against the link's directory and normalised).  `fuel`
bounds the walk; `none` models the Python loop spinning forever on a
symlink cycle.  The `assert path.exists()` guard and the
`orig_path.resolve()` mismatch warning of the source are diagnostics
that do not alter the fields returned here. -/
def resolveLoop (fs : FS) (fuzzy : List FsPath) :
    Nat → FsPath → List FsPath → List FsPath → Option ResolveResult
  | 0, _, _, _ => none
  | fuel + 1, path, aliases, used =>
    match assocFind fs.links path with
    | none => some ⟨path, aliases, false, used⟩
    | some link =>
      if path ∈ fuzzy then some ⟨path, aliases, true, path :: used⟩
      else
        resolveLoop fs fuzzy fuel
          (match link with
           | LinkTarget.abs q => q
           | LinkTarget.rel segs => joinNorm path segs)
          (aliases ++ [path]) used

/-- Embedding of the end-of-run fuzzy accounting in `main` (source lines
1049-1050): the configured fuzzy paths whose used flag was never set are
reported (`crit`) as never encountered. -/
def unused_fuzzy_report (fuzzy : List FsPath) (used : List FsPath) : List FsPath :=
  fuzzy.filter (fun d => decide (d ∉ used))

/-- Claim C4: a symlink that is a member of the fuzzy set stops resolution
at itself: the canonical path is the path itself, the fuzzy flag is set,
the path is not added to the alias set, the fuzzy entry is marked used,
and no further link is followed. -/
theorem fuzzy_symlink_stops_resolution
    (fs : FS) (fuzzy : List FsPath) (p : FsPath) (fuel : Nat)
    (aliases used : List FsPath)
    (hsym : is_symlink fs p = true) (hfz : p ∈ fuzzy) :
    resolveLoop fs fuzzy (fuel + 1) p aliases used =
      some ⟨p, aliases, true, p :: used⟩ := by
  unfold is_symlink at hsym
  rcases h : assocFind fs.links p with _ | link
  · rw [h] at hsym; simp at hsym
  · simp [resolveLoop, h, hfz]

/-- Witness for C4 on a concrete filesystem: `/lib/libz.so` is a symlink
listed in the fuzzy set, so resolution stops there immediately. -/
theorem fuzzy_symlink_stops_resolution_witness :
    is_symlink ⟨[(["lib", "libz.so"], LinkTarget.abs ["lib", "libz.so.1"])]⟩
        ["lib", "libz.so"] = true ∧
    ["lib", "libz.so"] ∈ [(["lib", "libz.so"] : FsPath)] ∧
    resolveLoop ⟨[(["lib", "libz.so"], LinkTarget.abs ["lib", "libz.so.1"])]⟩
        [["lib", "libz.so"]] 5 ["lib", "libz.so"] [] [] =
      some ⟨["lib", "libz.so"], [], true, [["lib", "libz.so"]]⟩ :=
  ⟨by decide, by decide,
    fuzzy_symlink_stops_resolution _ _ _ 4 [] [] (by decide) (by decide)⟩

/-- Claim C5: (a) a path that is not a symlink resolves to itself with no
aliases and the fuzzy flag clear; (b) a chain `/a -> /b -> /c` with `/c` a
regular file and no chain member in the fuzzy set resolves to canonical
`/c` with aliases `[/a, /b]`. -/
theorem resolve_plain_and_chain :
    (∀ (fs : FS) (fuzzy : List FsPath) (p : FsPath) (fuel : Nat),
      is_symlink fs p = false →
      resolveLoop fs fuzzy (fuel + 1) p [] [] = some ⟨p, [], false, []⟩) ∧
    (∀ (fs : FS) (fuzzy : List FsPath) (a b c : FsPath) (fuel : Nat),
      assocFind fs.links a = some (LinkTarget.abs b) →
      assocFind fs.links b = some (LinkTarget.abs c) →
      assocFind fs.links c = none →
      a ∉ fuzzy → b ∉ fuzzy →
      resolveLoop fs fuzzy (fuel + 3) a [] [] = some ⟨c, [a, b], false, []⟩) := by
  constructor
  · intro fs fuzzy p fuel hsym
    unfold is_symlink at hsym
    rcases h : assocFind fs.links p with _ | link
    · simp [resolveLoop, h]
    · rw [h] at hsym; simp at hsym
  · intro fs fuzzy a b c fuel ha hb hc haf hbf
    have h1 : resolveLoop fs fuzzy (fuel + 3) a [] [] =
        resolveLoop fs fuzzy (fuel + 2) b [a] [] := by
      simp [resolveLoop, ha, haf]
    have h2 : resolveLoop fs fuzzy (fuel + 2) b [a] [] =
        resolveLoop fs fuzzy (fuel + 1) c [a, b] [] := by
      simp [resolveLoop, hb, hbf]
    have h3 : resolveLoop fs fuzzy (fuel + 1) c [a, b] [] =
        some ⟨c, [a, b], false, []⟩ := by
      simp [resolveLoop, hc]
    rw [h1, h2, h3]

/-- Witness for C5 on a concrete filesystem with chain
`/a -> /b -> /c` and the plain file `/c`. -/
theorem resolve_plain_and_chain_witness :
    resolveLoop ⟨[(["a"], LinkTarget.abs ["b"]), (["b"], LinkTarget.abs ["c"])]⟩
        [] 3 ["c"] [] [] = some ⟨["c"], [], false, []⟩ ∧
    resolveLoop ⟨[(["a"], LinkTarget.abs ["b"]), (["b"], LinkTarget.abs ["c"])]⟩
        [] 5 ["a"] [] [] = some ⟨["c"], [["a"], ["b"]], false, []⟩ :=
  ⟨resolve_plain_and_chain.1 _ [] (["c"]) 2 (by decide),
   resolve_plain_and_chain.2 _ [] (["a"]) (["b"]) (["c"]) 2
     (by decide) (by decide) (by decide) (by decide) (by decide)⟩

/-- Every fuzzy-used mark recorded by the walk belongs to a path that is a
symlink; and a fuzzy outcome ends on a symlink.  Auxiliary to C10. -/
theorem resolveLoop_used_aux (fs : FS) (fuzzy : List FsPath) (f : FsPath)
    (hf : is_symlink fs f = false) :
    ∀ (fuel : Nat) (path : FsPath) (aliases used : List FsPath) (r : ResolveResult),
      resolveLoop fs fuzzy fuel path aliases used = some r →
      (f ∉ used → f ∉ r.fuzzy_used) ∧
      (r.is_fuzzy = true → is_symlink fs r.canonical = true) := by
  intro fuel
  induction fuel with
  | zero => intro path aliases used r h; simp [resolveLoop] at h
  | succ n ih =>
    intro path aliases used r h
    rcases hl : assocFind fs.links path with _ | link
    · simp [resolveLoop, hl] at h
      constructor
      · intro hu; rw [← h]; exact hu
      · intro hfz; rw [← h] at hfz; simp at hfz
    · by_cases hfz : path ∈ fuzzy
      · simp [resolveLoop, hl, hfz] at h
        constructor
        · intro hu
          rw [← h]
          simp only [List.mem_cons, not_or]
          refine ⟨?_, hu⟩
          intro hpf
          rw [hpf] at hf
          unfold is_symlink at hf
          rw [hl] at hf
          simp at hf
        · intro _
          rw [← h]
          unfold is_symlink
          rw [hl]
          rfl
      · simp only [resolveLoop, hl, hfz, if_neg] at h
        exact ih _ _ _ _ h

/-- Claim C10: a configured fuzzy path that is not a symlink is never
matched by the fuzzy check: it is never marked used by any resolution, a
resolution ending at it is not fuzzy, and the end-of-run accounting
reports it as never encountered. -/
theorem nonsymlink_fuzzy_never_used
    (fs : FS) (fuzzy : List FsPath) (f : FsPath) (fuel : Nat)
    (p : FsPath) (r : ResolveResult)
    (hmem : f ∈ fuzzy) (hf : is_symlink fs f = false)
    (hres : resolveLoop fs fuzzy fuel p [] [] = some r) :
    f ∉ r.fuzzy_used ∧
    (r.canonical = f → r.is_fuzzy = false) ∧
    f ∈ unused_fuzzy_report fuzzy r.fuzzy_used := by
  have haux := resolveLoop_used_aux fs fuzzy f hf fuel p [] [] r hres
  have hnotused : f ∉ r.fuzzy_used := haux.1 (by simp)
  refine ⟨hnotused, ?_, ?_⟩
  · intro hcan
    by_contra hne
    have : r.is_fuzzy = true := by
      cases h : r.is_fuzzy
      · exact absurd h hne
      · rfl
    have := haux.2 this
    rw [hcan] at this
    rw [hf] at this
    simp at this
  · unfold unused_fuzzy_report
    rw [List.mem_filter]
    exact ⟨hmem, by simpa using hnotused⟩

/-- Witness for C10: fuzzy entry `/lib/libq.so` is a regular file, the
resolution of `/a` (a symlink to it) succeeds non-fuzzily and the entry
lands in the never-encountered report. -/
theorem nonsymlink_fuzzy_never_used_witness :
    (["lib", "libq.so"] : FsPath) ∈ [(["lib", "libq.so"] : FsPath)] ∧
    is_symlink ⟨[(["a"], LinkTarget.abs ["lib", "libq.so"])]⟩ ["lib", "libq.so"] = false ∧
    resolveLoop ⟨[(["a"], LinkTarget.abs ["lib", "libq.so"])]⟩
        [["lib", "libq.so"]] 5 ["a"] [] [] =
      some ⟨["lib", "libq.so"], [["a"]], false, []⟩ ∧
    (((["lib", "libq.so"] : FsPath) ∉ ([] : List FsPath)) ∧
      ((⟨["lib", "libq.so"], [["a"]], false, []⟩ : ResolveResult).canonical =
          ["lib", "libq.so"] → False = true → False) ∧
      (["lib", "libq.so"] : FsPath) ∈ unused_fuzzy_report [["lib", "libq.so"]] []) := by
  refine ⟨by decide, by decide, by decide, ?_⟩
  have h := nonsymlink_fuzzy_never_used ⟨[(["a"], LinkTarget.abs ["lib", "libq.so"])]⟩
    [["lib", "libq.so"]] ["lib", "libq.so"] 5 ["a"]
    ⟨["lib", "libq.so"], [["a"]], false, []⟩ (by decide) (by decide) (by decide)
  exact ⟨h.1, fun hc hb => by simp at hb, h.2.2⟩


/-- A dependency edge as recorded by `DynamicExecutable.add_dep`:
`(shortname, path-as-declared, realpath)`. -/
abbrev Dep := String × FsPath × FsPath

/-- A `SharedObject` after construction: canonical path (realpath unless
fuzziness truncated the walk), dependency edges, the symlink aliases (a
Python `set`, here the duplicate-free list produced by the walk), and
the fuzziness flag. -/
structure SharedObj where
  path : FsPath
  deps : List Dep
  aliases : List FsPath
  is_fuzzy : Bool
deriving DecidableEq

/-- A top-level `Binary`: the requested path (never canonicalised by the
source) and its dependency edges. -/
structure Bin where
  path : FsPath
  deps : List Dep
deriving DecidableEq

/-- Embedding of `SharedObject.merge` (source lines 220-233): the paths,
dependency lists and fuzziness flags must agree (the source `assert`s
this; `none` models the assertion failing), and the merged object keeps
those fields while taking the union of the alias sets. -/
def SharedObj.merge (a b : SharedObj) : Option SharedObj :=
  if a.path = b.path ∧ a.deps = b.deps ∧ a.is_fuzzy = b.is_fuzzy then
    some { path := a.path, deps := a.deps,
           aliases := a.aliases ∪ b.aliases, is_fuzzy := a.is_fuzzy }
  else none

/-- Replace the (first) binding of a key, keeping its position – what a
Python `dict` assignment to an existing key does. -/
def assocReplace {α β : Type} [DecidableEq α] : List (α × β) → α → β → List (α × β)
  | [], _, _ => []
  | (k, v) :: rest, a, w =>
    if k = a then (a, w) :: rest else (k, v) :: assocReplace rest a w

/-- The shared-object store, keyed by canonical path, in insertion order. -/
abbrev Store := List (FsPath × SharedObj)

/-- Embedding of `SharedObjectStore.__setitem__` (source lines 239-242):
inserting at an occupied key merges with the existing entry (aborting if
the merge assertion fails), otherwise appends. -/
def storeInsert (store : Store) (key : FsPath) (item : SharedObj) : Option Store :=
  match assocFind store key with
  | some existing => (existing.merge item).map (fun m => assocReplace store key m)
  | none => some (store ++ [(key, item)])

/-- `SharedObjectStore.add` (source line 244). -/
def storeAdd (store : Store) (item : SharedObj) : Option Store :=
  storeInsert store item.path item

/-- Claim C6: inserting a second observation of an already-stored
canonical path whose dependency list or fuzziness flag disagrees with the
stored one is fatal: the insertion aborts instead of merging. -/
theorem store_merge_disagreement_fatal
    (store : Store) (key : FsPath) (item existing : SharedObj)
    (hfind : assocFind store key = some existing)
    (_hpath : existing.path = item.path)
    (hdiff : existing.deps ≠ item.deps ∨ existing.is_fuzzy ≠ item.is_fuzzy) :
    storeInsert store key item = none := by
  have hcond : ¬(existing.path = item.path ∧ existing.deps = item.deps ∧
      existing.is_fuzzy = item.is_fuzzy) := by
    intro hall
    rcases hdiff with h | h
    · exact h hall.2.1
    · exact h hall.2.2
  simp [storeInsert, hfind, SharedObj.merge, hcond]

/-- Witness for C6: two observations of `/lib/libc.so.6` that disagree on
their dependency lists make the insertion abort. -/
theorem store_merge_disagreement_fatal_witness :
    assocFind [((["lib", "libc.so.6"] : FsPath),
        (⟨["lib", "libc.so.6"], [], [], false⟩ : SharedObj))] ["lib", "libc.so.6"] =
      some ⟨["lib", "libc.so.6"], [], [], false⟩ ∧
    (⟨["lib", "libc.so.6"], [], [], false⟩ : SharedObj).path =
      (⟨["lib", "libc.so.6"], [("ld.so", ["lib", "ld.so"], ["lib", "ld.so"])], [], false⟩ : SharedObj).path ∧
    storeInsert [(["lib", "libc.so.6"], ⟨["lib", "libc.so.6"], [], [], false⟩)]
        ["lib", "libc.so.6"]
        ⟨["lib", "libc.so.6"], [("ld.so", ["lib", "ld.so"], ["lib", "ld.so"])], [], false⟩ =
      none :=
  ⟨by decide, by decide,
    store_merge_disagreement_fatal
      [(["lib", "libc.so.6"], ⟨["lib", "libc.so.6"], [], [], false⟩)]
      ["lib", "libc.so.6"]
      ⟨["lib", "libc.so.6"], [("ld.so", ["lib", "ld.so"], ["lib", "ld.so"])], [], false⟩
      ⟨["lib", "libc.so.6"], [], [], false⟩
      (by decide) (by decide) (Or.inl (by decide))⟩

/-- Looking up a key after replacing its binding yields the new value
(and replacing an absent key changes nothing). -/
theorem assocFind_assocReplace {α β : Type} [DecidableEq α]
    (l : List (α × β)) (a : α) (w : β) :
    assocFind (assocReplace l a w) a = (assocFind l a).map (fun _ => w) := by
  induction l with
  | nil => simp [assocFind, assocReplace]
  | cons hd tl ih =>
    obtain ⟨k, v⟩ := hd
    by_cases hk : k = a
    · subst hk
      simp [assocReplace, assocFind]
    · simp [assocReplace, assocFind, hk, ih]

/-- Claim C7: inserting a second observation of a stored canonical path
with equal path, dependency list and fuzziness succeeds, and the stored
node keeps its path, dependency list and fuzziness while its alias set
becomes the union of the two alias sets. -/
theorem store_merge_agreement_unions_aliases
    (store : Store) (key : FsPath) (item existing : SharedObj)
    (hfind : assocFind store key = some existing)
    (hpath : existing.path = item.path)
    (hdeps : existing.deps = item.deps)
    (hfuzz : existing.is_fuzzy = item.is_fuzzy) :
    ∃ store', storeInsert store key item = some store' ∧
      ∃ n, assocFind store' key = some n ∧
        n.path = existing.path ∧ n.deps = existing.deps ∧
        n.is_fuzzy = existing.is_fuzzy ∧
        ∀ x, x ∈ n.aliases ↔ (x ∈ existing.aliases ∨ x ∈ item.aliases) := by
  have hm : existing.merge item =
      some { path := existing.path, deps := existing.deps,
             aliases := existing.aliases ∪ item.aliases,
             is_fuzzy := existing.is_fuzzy } := by
    unfold SharedObj.merge
    rw [if_pos ⟨hpath, hdeps, hfuzz⟩]
  refine ⟨assocReplace store key
      { path := existing.path, deps := existing.deps,
        aliases := existing.aliases ∪ item.aliases,
        is_fuzzy := existing.is_fuzzy }, ?_, ?_⟩
  · simp [storeInsert, hfind, hm]
  · apply Exists.intro (SharedObj.mk existing.path existing.deps
      (existing.aliases ∪ item.aliases) existing.is_fuzzy)
    refine ⟨?_, rfl, rfl, rfl, ?_⟩
    · rw [assocFind_assocReplace, hfind]
      rfl
    · intro x
      exact List.mem_union_iff

/-- Witness for C7: a second, alias-bearing observation of
`/lib/libm.so` merges into the store with the alias sets unioned. -/
theorem store_merge_agreement_unions_aliases_witness :
    ∃ store', storeInsert
        [((["lib", "libm.so"] : FsPath),
          (⟨["lib", "libm.so"], [], [["usr", "libm.so"]], false⟩ : SharedObj))]
        ["lib", "libm.so"]
        ⟨["lib", "libm.so"], [], [["opt", "libm.so"]], false⟩ = some store' ∧
      ∃ n, assocFind store' ["lib", "libm.so"] = some n ∧
        n.path = (["lib", "libm.so"] : FsPath) ∧ n.deps = [] ∧
        n.is_fuzzy = false ∧
        ∀ x, x ∈ n.aliases ↔
          (x ∈ ([["usr", "libm.so"]] : List FsPath) ∨
            x ∈ ([["opt", "libm.so"]] : List FsPath)) :=
  store_merge_agreement_unions_aliases
    [(["lib", "libm.so"], ⟨["lib", "libm.so"], [], [["usr", "libm.so"]], false⟩)]
    ["lib", "libm.so"]
    ⟨["lib", "libm.so"], [], [["opt", "libm.so"]], false⟩
    ⟨["lib", "libm.so"], [], [["usr", "libm.so"]], false⟩
    (by decide) (by decide) (by decide) (by decide)

/-- The outcome of the ELF-type dispatch at the top of `process_file`. -/
inductive ETypeOutcome where
  | proceed (is_shared_object : Bool) (needs_extra_ld_paths : Bool)
  | fatal
deriving DecidableEq

/-- Embedding of the ELF-type dispatch of `process_file` (source lines
386-401).  `ET_DYN` proceeds as a shared object (needing extra loader
paths exactly when it has no `PT_INTERP` segment); `ET_EXEC` proceeds as
a binary.  For any other type the source builds a
`ValueError("Expected a binary (ET_EXEC) or a shared object ...")` but
never raises it — the expression statement discards the exception — so
execution falls through and proceeds with the flags still at their
initialised values (`False`, `False`). -/
def elf_type_check (e_type : String) (has_interp : Bool) : ETypeOutcome :=
  if e_type = "ET_DYN" then ETypeOutcome.proceed true (!has_interp)
  else if e_type = "ET_EXEC" then ETypeOutcome.proceed false false
  else ETypeOutcome.proceed false false

/-- Claim C2 (code bug): an input whose ELF type is neither `ET_EXEC` nor
`ET_DYN` (here `ET_REL`, a relocatable object) does not abort: the
missing `raise` lets `process_file` continue into dependency resolution
as if the file were a non-shared-object binary; no ELF type at all is
fatal. -/
theorem elf_type_check_et_rel_proceeds :
    elf_type_check "ET_REL" false = ETypeOutcome.proceed false false ∧
    elf_type_check "ET_CORE" true = ETypeOutcome.proceed false false ∧
    ∀ t h, ∃ s n, elf_type_check t h = ETypeOutcome.proceed s n := by
  refine ⟨by decide, by decide, ?_⟩
  intro t h
  unfold elf_type_check
  by_cases h1 : t = "ET_DYN"
  · exact ⟨true, !h, by simp [h1]⟩
  · by_cases h2 : t = "ET_EXEC"
    · exact ⟨false, false, by simp [h1, h2]⟩
    · exact ⟨false, false, by simp [h1, h2]⟩

/-- `assocFind` misses exactly the keys that are not in the list. -/
theorem assocFind_eq_none {α β : Type} [DecidableEq α]
    (l : List (α × β)) (a : α) :
    assocFind l a = none ↔ a ∉ l.map Prod.fst := by
  induction l with
  | nil => simp [assocFind]
  | cons hd tl ih =>
    obtain ⟨k, v⟩ := hd
    by_cases hk : k = a
    · subst hk
      simp [assocFind]
    · rw [show assocFind ((k, v) :: tl) a = assocFind tl a from by simp [assocFind, hk]]
      rw [ih]
      simp only [List.map_cons, List.mem_cons, not_or]
      constructor
      · intro h
        exact ⟨fun hak => hk hak.symm, h⟩
      · intro h
        exact h.2

/-- Splitting an `assocFind` miss over an append. -/
theorem assocFind_append_none {α β : Type} [DecidableEq α]
    (m m2 : List (α × β)) (a : α) :
    assocFind (m ++ m2) a = none ↔ assocFind m a = none ∧ assocFind m2 a = none := by
  induction m with
  | nil => simp [assocFind]
  | cons hd tl ih =>
    obtain ⟨k, v⟩ := hd
    by_cases hk : k = a
    · subst hk
      simp [assocFind]
    · simp only [List.cons_append]
      rw [show assocFind ((k, v) :: (tl ++ m2)) a = assocFind (tl ++ m2) a from by
        simp [assocFind, hk]]
      rw [show assocFind ((k, v) :: tl) a = assocFind tl a from by simp [assocFind, hk]]
      exact ih

/-- A key of the flattened path map built by `check_for_collisions`.
`main` keys the `bins` dict by the requested path *strings* (the raw
command-line arguments) and passes those strings to `put`, while library
entries are keyed by `pathlib.Path` values; a Python `str` never
compares equal to a `Path`, so the two key kinds live in disjoint
spaces, modelled by the two constructors. -/
inductive PKey where
  | strKey (s : String)
  | pathKey (p : FsPath)
deriving DecidableEq

/-- One `put` into the flattened map of `check_for_collisions` (source
lines 485-491): an occupied key raises `ValueError` (modelled `none`).
The stored value is the owning node's path. -/
def collPut (m : List (PKey × FsPath)) (k : PKey) (owner : FsPath) :
    Option (List (PKey × FsPath)) :=
  match assocFind m k with
  | some _ => none
  | none => some (m ++ [(k, owner)])

/-- Sequence of `put`s. -/
def collPutAll (m : List (PKey × FsPath)) :
    List (PKey × FsPath) → Option (List (PKey × FsPath))
  | [] => some m
  | (k, owner) :: rest =>
    match collPut m k owner with
    | none => none
    | some m1 => collPutAll m1 rest

/-- Every canonical path and alias owned by the store, in iteration
order. -/
def store_flat_paths (store : Store) : List FsPath :=
  store.flatMap (fun pr => pr.1 :: pr.2.aliases)

/-- Embedding of `check_for_collisions` (source lines 482-496): binaries
are `put` under their requested-path string keys, then every library is
`put` under its canonical path and each of its aliases; the first
occupied key aborts the run. -/
def check_for_collisions (bins : List (String × Bin)) (store : Store) :
    Option (List (PKey × FsPath)) :=
  match collPutAll [] (bins.map (fun pr => (PKey.strKey pr.1, pr.2.path))) with
  | none => none
  | some m =>
    collPutAll m
      (store.flatMap (fun pr =>
        (pr.1 :: pr.2.aliases).map (fun p => (PKey.pathKey p, pr.2.path))))

/-- Success of the fold of `put`s: the new keys must be mutually distinct
and absent from the accumulated map. -/
theorem collPutAll_isSome_iff :
    ∀ (l : List (PKey × FsPath)) (m : List (PKey × FsPath)),
      (collPutAll m l).isSome ↔
        ((l.map Prod.fst).Nodup ∧ ∀ k ∈ l.map Prod.fst, assocFind m k = none) := by
  intro l
  induction l with
  | nil => intro m; simp [collPutAll]
  | cons hd tl ih =>
    intro m
    obtain ⟨k, owner⟩ := hd
    rcases hf : assocFind m k with _ | v
    · rw [show collPutAll m ((k, owner) :: tl) = collPutAll (m ++ [(k, owner)]) tl from by
        simp [collPutAll, collPut, hf]]
      rw [ih]
      simp only [List.map_cons, List.nodup_cons, List.mem_cons]
      constructor
      · rintro ⟨hnd, hall⟩
        have hke : ∀ x ∈ tl.map Prod.fst, assocFind m x = none ∧ x ≠ k := by
          intro x hx
          have hx2 := hall x hx
          rw [assocFind_append_none] at hx2
          refine ⟨hx2.1, ?_⟩
          intro hxe
          subst hxe
          have hone := hx2.2
          simp [assocFind] at hone
        refine ⟨⟨?_, hnd⟩, ?_⟩
        · intro hk
          exact (hke k hk).2 rfl
        · intro x hx
          rcases hx with hx | hx
          · subst hx; exact hf
          · exact (hke x hx).1
      · rintro ⟨⟨hk, hnd⟩, hall⟩
        refine ⟨hnd, ?_⟩
        intro x hx
        rw [assocFind_append_none]
        refine ⟨hall x (Or.inr hx), ?_⟩
        have hxk : ¬(k = x) := by
          intro hxe
          subst hxe
          exact hk hx
        simp [assocFind, hxk]
    · rw [show collPutAll m ((k, owner) :: tl) = none from by
        simp [collPutAll, collPut, hf]]
      simp only [Option.isSome_none, Bool.false_eq_true, false_iff]
      intro hcon
      have hkn := hcon.2 k (by simp)
      rw [hkn] at hf
      exact Option.noConfusion hf

/-- After a successful fold, the accumulated keys are the old keys plus
the new ones in order. -/
theorem collPutAll_keys :
    ∀ (l : List (PKey × FsPath)) (m m' : List (PKey × FsPath)),
      collPutAll m l = some m' →
      m'.map Prod.fst = m.map Prod.fst ++ l.map Prod.fst := by
  intro l
  induction l with
  | nil =>
    intro m m' h
    simp [collPutAll] at h
    simp [h]
  | cons hd tl ih =>
    intro m m' h
    obtain ⟨k, owner⟩ := hd
    rcases hf : assocFind m k with _ | v
    · rw [show collPutAll m ((k, owner) :: tl) = collPutAll (m ++ [(k, owner)]) tl from by
        simp [collPutAll, collPut, hf]] at h
      have := ih (m ++ [(k, owner)]) m' h
      simpa using this
    · rw [show collPutAll m ((k, owner) :: tl) = none from by
        simp [collPutAll, collPut, hf]] at h
      exact Option.noConfusion h

/-- Claim C3, amended: `check_for_collisions` succeeds exactly when the
requested binary path strings are pairwise distinct and the library
canonical-paths-plus-aliases are pairwise distinct.  Binary keys are the
raw requested strings — never canonicalised, and never comparable to a
library path key — so two distinct requested strings that canonicalise
to the same file do not collide and the run proceeds (and the two
binaries stay separate nodes, being distinct `bins` entries). -/
theorem check_for_collisions_characterisation
    (bins : List (String × Bin)) (store : Store) :
    (check_for_collisions bins store).isSome ↔
      ((bins.map Prod.fst).Nodup ∧ (store_flat_paths store).Nodup) := by
  have hbinkeys : (bins.map (fun pr => (PKey.strKey pr.1, pr.2.path))).map Prod.fst =
      (bins.map Prod.fst).map PKey.strKey := by
    simp only [List.map_map]
    rfl
  have hflatkeys :
      (store.flatMap (fun pr =>
        (pr.1 :: pr.2.aliases).map (fun p => (PKey.pathKey p, pr.2.path)))).map Prod.fst =
      (store_flat_paths store).map PKey.pathKey := by
    unfold store_flat_paths
    simp only [List.map_flatMap, List.map_map]
    rfl
  rcases h1 : collPutAll [] (bins.map (fun pr => (PKey.strKey pr.1, pr.2.path))) with _ | m
  · have hc : check_for_collisions bins store = none := by
      unfold check_for_collisions
      rw [h1]
    rw [hc]
    have hbin := collPutAll_isSome_iff
      (bins.map (fun pr => (PKey.strKey pr.1, pr.2.path))) []
    rw [h1] at hbin
    simp only [Option.isSome_none, Bool.false_eq_true, false_iff] at hbin ⊢
    intro hcon
    apply hbin
    refine ⟨?_, ?_⟩
    · rw [hbinkeys]
      exact hcon.1.map (fun a b hab => PKey.strKey.inj hab)
    · intro x _
      simp [assocFind]
  · have hc : check_for_collisions bins store =
        collPutAll m (store.flatMap (fun pr =>
          (pr.1 :: pr.2.aliases).map (fun p => (PKey.pathKey p, pr.2.path)))) := by
      unfold check_for_collisions
      rw [h1]
    rw [hc]
    have hbin := collPutAll_isSome_iff
      (bins.map (fun pr => (PKey.strKey pr.1, pr.2.path))) []
    rw [h1] at hbin
    simp only [Option.isSome_some, true_iff] at hbin
    have hmkeys : m.map Prod.fst = (bins.map Prod.fst).map PKey.strKey := by
      have := collPutAll_keys _ _ _ h1
      rw [this, hbinkeys]
      rfl
    rw [collPutAll_isSome_iff]
    constructor
    · rintro ⟨hnd, _⟩
      refine ⟨?_, ?_⟩
      · have hb := hbin.1
        rw [hbinkeys] at hb
        exact (List.nodup_map_iff (fun a b hab => PKey.strKey.inj hab)).mp hb
      · rw [hflatkeys] at hnd
        exact (List.nodup_map_iff (fun a b hab => PKey.pathKey.inj hab)).mp hnd
    · rintro ⟨_, hnd⟩
      refine ⟨?_, ?_⟩
      · rw [hflatkeys]
        exact hnd.map (fun a b hab => PKey.pathKey.inj hab)
      · intro k hk
        rw [hflatkeys] at hk
        rw [assocFind_eq_none, hmkeys]
        simp only [List.mem_map] at hk ⊢
        rintro ⟨s, _, hs⟩
        obtain ⟨p, _, hp⟩ := hk
        rw [← hp] at hs
        exact PKey.noConfusion hs

/-- Witness for the amended C3: a concrete store with duplicate-free
binary keys and library paths passes the check. -/
theorem check_for_collisions_characterisation_witness :
    (check_for_collisions [("/bin/x", ⟨["bin", "x"], []⟩)]
        [(["lib", "libc.so.6"], ⟨["lib", "libc.so.6"], [], [], false⟩)]).isSome ↔
      (([("/bin/x", (⟨["bin", "x"], []⟩ : Bin))].map Prod.fst).Nodup ∧
        (store_flat_paths
          [(["lib", "libc.so.6"], ⟨["lib", "libc.so.6"], [], [], false⟩)]).Nodup) :=
  check_for_collisions_characterisation [("/bin/x", ⟨["bin", "x"], []⟩)]
    [(["lib", "libc.so.6"], ⟨["lib", "libc.so.6"], [], [], false⟩)]

/-- Claim C3, counterexample: `/sbin/x` is a symlink to `/bin/x`, so the
two distinct requested binary paths canonicalise to the same filesystem
path, yet `check_for_collisions` succeeds (no abort before label
assignment) because the binaries are keyed by their distinct requested
strings. -/
theorem distinct_requests_same_canonical_no_abort :
    ("/sbin/x" ≠ "/bin/x") ∧
    resolveLoop ⟨[(["sbin", "x"], LinkTarget.abs ["bin", "x"])]⟩ [] 5
        ["sbin", "x"] [] [] = some ⟨["bin", "x"], [["sbin", "x"]], false, []⟩ ∧
    resolveLoop ⟨[(["sbin", "x"], LinkTarget.abs ["bin", "x"])]⟩ [] 5
        ["bin", "x"] [] [] = some ⟨["bin", "x"], [], false, []⟩ ∧
    (check_for_collisions
        [("/sbin/x", ⟨["sbin", "x"], []⟩), ("/bin/x", ⟨["bin", "x"], []⟩)]
        []).isSome = true := by
  refine ⟨by decide, by decide, by decide, by decide⟩

/-- Split a character list around its last dot: `some (before, after)`
when a dot exists. -/
def splitAtLastDot : List Char → Option (List Char × List Char)
  | [] => none
  | c :: rest =>
    match splitAtLastDot rest with
    | some (b, a) => some (c :: b, a)
    | none => if c = '.' then some ([], rest) else none

/-- `pathlib.PurePath.stem` of an ordinary filename component (no
separators, as produced by the resolver): the part before the last dot,
except that a leading or a trailing dot does not count as a suffix
separator. -/
def stem (s : String) : String :=
  match splitAtLastDot s.data with
  | none => s
  | some (b, a) => if b = [] ∨ a = [] then s else String.mk b

/-- The suffix-stripping loop of `potential_labels`: the filename, then
the filename with one more extension stripped each round, down to the
bare stem.  `fuel` is initialised to the string length, which the
strictly shrinking `stem` can never exhaust. -/
def nameChainF : Nat → String → List String
  | 0, curr => [curr]
  | fuel + 1, curr =>
    if stem curr = curr then [curr] else curr :: nameChainF fuel (stem curr)

def nameChain (curr : String) : List String := nameChainF curr.length curr

/-- Embedding of `potential_labels` (source lines 498-507): the fully
path-qualified label (components joined by a double underscore) first,
then the filename with progressively fewer extensions.  For
`/lib64/libc.so.6.2` this yields
`[lib64__libc.so.6.2, libc.so.6.2, libc.so.6, libc.so, libc]`. -/
def potential_labels (p : FsPath) : List String :=
  String.intercalate ("__") p :: nameChain (p.getLastD (""))

/-- `assign_labels.put`'s `get_potential`: the potential labels from
least specific to most specific (the absolute-path fallback last). -/
def get_potential (p : FsPath) : List String := (potential_labels p).reverse

/-- The label dict under construction: label string to node (a node is
identified by its path, the only field `put` consults). -/
abbrev LabelDict := List (String × FsPath)

abbrev Pots := List String

/-- `pots[i]` with Python indexing: `-1` is the last element. -/
def potsAt (pots : Pots) (i : Int) : String :=
  if i < 0 then pots.getLastD ("") else pots.getD i.toNat ("")

/-- `pots[0:i] + [pots[i]]`: the labels swept when displacing at level
`i`; for `i = -1` (the fallback level) this is the whole list. -/
def sweepLabels (pots : Pots) (i : Int) : List String :=
  (if i < 0 then pots.dropLast else pots.take i.toNat) ++ [potsAt pots i]

/-- Sweep the labels of one displaced pair against the label dict: every
claimed label evicts its owner, which joins the displaced set (with its
own potential list recomputed from its path). -/
def sweepOne (d : LabelDict) : List String → LabelDict × List (FsPath × Pots)
  | [] => (d, [])
  | l :: ls =>
    match assocFind d l with
    | some entry =>
      ((sweepOne (assocErase d l) ls).1,
        (entry, get_potential entry) :: (sweepOne (assocErase d l) ls).2)
    | none => sweepOne d ls

/-- The `for _, pots in displaced:` sweep of `assign_labels.put` (source
lines 548-555): Python iterates `displaced` by index while the body
appends to it, so newly evicted entries are swept in the same pass.  The
queue is processed front to back with evictions joining at the back; the
result is the dict after all evictions together with the pairs in
processing order.  `fuel` is initialised to the termination measure
`d.length + q.length`, which each step strictly decreases, so the
exhaustion branch is unreachable at every call site below. -/
def sweepAllF : Nat → Int → LabelDict → List (FsPath × Pots) →
    LabelDict × List (FsPath × Pots)
  | _, _, d, [] => (d, [])
  | 0, _, d, pr :: rest => (d, pr :: rest)
  | fuel + 1, i, d, pr :: rest =>
    ((sweepAllF fuel i (sweepOne d (sweepLabels pr.2 i)).1
        (rest ++ (sweepOne d (sweepLabels pr.2 i)).2)).1,
      pr :: (sweepAllF fuel i (sweepOne d (sweepLabels pr.2 i)).1
        (rest ++ (sweepOne d (sweepLabels pr.2 i)).2)).2)

/-- One run of the candidate-level loop of `assign_labels.put` (source
lines 529-558), fuelled by the number of remaining levels (the Python
`for i, _ in enumerate(potentials)`).  Each iteration: switch the whole
round to the absolute-path fallback level `-1` as soon as any member of
the round has no more-specific candidate left; if the current level
gives mutually distinct labels that are all unclaimed, stop with that
level; otherwise evict every claimant of the swept labels into the
round and move to the next level.  Exhausting the levels is the
`for`/`else` `ValueError`, modelled `none`. -/
def putLoopAux (pots0 : Pots) :
    Nat → Nat → LabelDict → List (FsPath × Pots) →
    Option (Int × List (FsPath × Pots) × LabelDict)
  | 0, _, _, _ => none
  | fuel + 1, idx, d, disp =>
    if pots0.length ≤ idx then none
    else
      let i : Int :=
        if disp.any (fun pr => decide (pr.2.length - 1 ≤ idx)) then -1 else (idx : Int)
      let mapping := disp.map (fun pr => potsAt pr.2 i)
      if mapping.dedup.length = disp.length ∧ ∀ l ∈ mapping, assocFind d l = none then
        some (i, disp, d)
      else
        putLoopAux pots0 fuel (idx + 1)
          (sweepAllF (d.length + disp.length) i d disp).1
          (sweepAllF (d.length + disp.length) i d disp).2

/-- Final placement of a successful round (source lines 560-564): each
member of the round claims its label at the chosen level; the source
`assert label not in dict` is modelled by failing on an occupied
label. -/
def placeAll (d : LabelDict) (level : Int) : List (FsPath × Pots) → Option LabelDict
  | [] => some d
  | pr :: rest =>
    match assocFind d (potsAt pr.2 level) with
    | some _ => none
    | none => placeAll (d ++ [(potsAt pr.2 level, pr.1)]) level rest

/-- Embedding of `assign_labels.put` (source lines 513-564): run the
candidate-level loop for the new node (the round initially containing
only the new node), then place every member of the final round. -/
def put (d : LabelDict) (new : FsPath) : Option LabelDict :=
  match putLoopAux (get_potential new) (get_potential new).length 0 d
      [(new, get_potential new)] with
  | none => none
  | some (level, disp, d1) => placeAll d1 level disp

/-- Sequential placement, `none` as soon as one `put` raises. -/
def assign_labels_fold : LabelDict → List FsPath → Option LabelDict
  | d, [] => some d
  | d, p :: rest =>
    match put d p with
    | none => none
    | some d1 => assign_labels_fold d1 rest

/-- Embedding of `assign_labels` (source lines 510-570): binaries are
placed first, then the store's shared objects, into one label dict
(nodes identified by their paths, the only field the algorithm reads). -/
def assign_labels (bins : List FsPath) (sos : List FsPath) : Option LabelDict :=
  assign_labels_fold [] (bins ++ sos)

/-- Erasing a key gives back a sublist of the dict. -/
theorem assocErase_sublist {α β : Type} [DecidableEq α] (d : List (α × β)) (a : α) :
    (assocErase d a).Sublist d := by
  induction d with
  | nil => simp [assocErase]
  | cons hd tl ih =>
    obtain ⟨k, v⟩ := hd
    by_cases hk : k = a
    · rw [show assocErase ((k, v) :: tl) a = tl from by simp [assocErase, hk]]
      exact List.sublist_cons_self _ _
    · rw [show assocErase ((k, v) :: tl) a = (k, v) :: assocErase tl a from by
        simp [assocErase, hk]]
      exact List.Sublist.cons₂ _ ih

/-- Erasing a present key removes exactly one entry. -/
theorem assocErase_length {α β : Type} [DecidableEq α] (d : List (α × β)) (a : α) (v : β)
    (h : assocFind d a = some v) : (assocErase d a).length + 1 = d.length := by
  induction d with
  | nil => simp [assocFind] at h
  | cons hd tl ih =>
    obtain ⟨k, w⟩ := hd
    by_cases hk : k = a
    · rw [show assocErase ((k, w) :: tl) a = tl from by simp [assocErase, hk]]
      simp
    · rw [show assocFind ((k, w) :: tl) a = assocFind tl a from by
        simp [assocFind, hk]] at h
      rw [show assocErase ((k, w) :: tl) a = (k, w) :: assocErase tl a from by
        simp [assocErase, hk]]
      simp only [List.length_cons]
      rw [ih h]

/-- Erasing a found entry is a permutation splitting off its value. -/
theorem assocErase_perm {α β : Type} [DecidableEq α] (d : List (α × β)) (a : α) (v : β)
    (h : assocFind d a = some v) :
    (d.map Prod.snd).Perm (v :: (assocErase d a).map Prod.snd) := by
  induction d with
  | nil => simp [assocFind] at h
  | cons hd tl ih =>
    obtain ⟨k, w⟩ := hd
    by_cases hk : k = a
    · rw [show assocFind ((k, w) :: tl) a = some w from by simp [assocFind, hk]] at h
      rw [show assocErase ((k, w) :: tl) a = tl from by simp [assocErase, hk]]
      injection h with hwv
      simp only [List.map_cons]
      rw [← hwv]
    · rw [show assocFind ((k, w) :: tl) a = assocFind tl a from by
        simp [assocFind, hk]] at h
      rw [show assocErase ((k, w) :: tl) a = (k, w) :: assocErase tl a from by
        simp [assocErase, hk]]
      simp only [List.map_cons]
      exact (List.Perm.cons w (ih h)).trans (List.Perm.swap v w _)

/-- A sweep never grows dict-plus-evictions. -/
theorem sweepOne_length (ls : List String) : ∀ d : LabelDict,
    (sweepOne d ls).1.length + (sweepOne d ls).2.length ≤ d.length := by
  induction ls with
  | nil => intro d; simp [sweepOne]
  | cons l ls ih =>
    intro d
    rcases hf : assocFind d l with _ | entry
    · rw [show sweepOne d (l :: ls) = sweepOne d ls from by simp [sweepOne, hf]]
      exact ih d
    · rw [show sweepOne d (l :: ls) =
          ((sweepOne (assocErase d l) ls).1,
            (entry, get_potential entry) :: (sweepOne (assocErase d l) ls).2) from by
        simp [sweepOne, hf]]
      simp only [List.length_cons]
      have h1 := ih (assocErase d l)
      have h2 := assocErase_length d l entry hf
      omega

/-- A sweep only moves values from the dict into the evicted set. -/
theorem sweepOne_perm (ls : List String) : ∀ d : LabelDict,
    ((sweepOne d ls).1.map Prod.snd ++ (sweepOne d ls).2.map Prod.fst).Perm
      (d.map Prod.snd) := by
  induction ls with
  | nil => intro d; simp [sweepOne]
  | cons l ls ih =>
    intro d
    rcases hf : assocFind d l with _ | entry
    · rw [show sweepOne d (l :: ls) = sweepOne d ls from by simp [sweepOne, hf]]
      exact ih d
    · rw [show sweepOne d (l :: ls) =
          ((sweepOne (assocErase d l) ls).1,
            (entry, get_potential entry) :: (sweepOne (assocErase d l) ls).2) from by
        simp [sweepOne, hf]]
      simp only [List.map_cons]
      have h1 := ih (assocErase d l)
      have h2 := assocErase_perm d l entry hf
      exact List.perm_middle.trans ((h1.cons entry).trans h2.symm)

/-- A sweep leaves a sub-dict behind. -/
theorem sweepOne_sublist (ls : List String) : ∀ d : LabelDict,
    (sweepOne d ls).1.Sublist d := by
  induction ls with
  | nil => intro d; simp [sweepOne]
  | cons l ls ih =>
    intro d
    rcases hf : assocFind d l with _ | entry
    · rw [show sweepOne d (l :: ls) = sweepOne d ls from by simp [sweepOne, hf]]
      exact ih d
    · rw [show sweepOne d (l :: ls) =
          ((sweepOne (assocErase d l) ls).1,
            (entry, get_potential entry) :: (sweepOne (assocErase d l) ls).2) from by
        simp [sweepOne, hf]]
      exact (ih (assocErase d l)).trans (assocErase_sublist d l)

/-- With fuel at least the measure `d.length + q.length`, the full sweep
only moves values between the dict and the displaced set. -/
theorem sweepAllF_perm :
    ∀ (fuel : Nat) (i : Int) (d : LabelDict) (q : List (FsPath × Pots)),
      d.length + q.length ≤ fuel →
      ((sweepAllF fuel i d q).1.map Prod.snd ++
        (sweepAllF fuel i d q).2.map Prod.fst).Perm
        (d.map Prod.snd ++ q.map Prod.fst) := by
  intro fuel
  induction fuel with
  | zero =>
    intro i d q h
    have hq : q = [] := by
      cases q with
      | nil => rfl
      | cons a b => simp at h
    subst hq
    simp [sweepAllF]
  | succ n ih =>
    intro i d q h
    cases q with
    | nil => simp [sweepAllF]
    | cons pr rest =>
      obtain ⟨p, pots⟩ := pr
      simp only [sweepAllF, List.map_cons]
      have hlen := sweepOne_length (sweepLabels pots i) d
      have hone := sweepOne_perm (sweepLabels pots i) d
      simp only [List.length_cons] at h
      have hrec := ih i (sweepOne d (sweepLabels pots i)).1
        (rest ++ (sweepOne d (sweepLabels pots i)).2) (by
          simp only [List.length_append]
          omega)
      rw [List.map_append] at hrec
      have hcomm : ((sweepOne d (sweepLabels pots i)).1.map Prod.snd ++
          (rest.map Prod.fst ++ (sweepOne d (sweepLabels pots i)).2.map Prod.fst)).Perm
          (((sweepOne d (sweepLabels pots i)).1.map Prod.snd ++
            (sweepOne d (sweepLabels pots i)).2.map Prod.fst) ++ rest.map Prod.fst) := by
        rw [List.append_assoc]
        exact List.Perm.append_left _ List.perm_append_comm
      have hfin := hone.append_right (rest.map Prod.fst)
      have hlast : (d.map Prod.snd ++ p :: rest.map Prod.fst).Perm
          (p :: (d.map Prod.snd ++ rest.map Prod.fst)) := List.perm_middle
      exact List.perm_middle.trans
        (((hrec.trans (hcomm.trans hfin)).cons p).trans hlast.symm)

/-- With adequate fuel, the full sweep leaves a sub-dict behind. -/
theorem sweepAllF_sublist :
    ∀ (fuel : Nat) (i : Int) (d : LabelDict) (q : List (FsPath × Pots)),
      d.length + q.length ≤ fuel →
      (sweepAllF fuel i d q).1.Sublist d := by
  intro fuel
  induction fuel with
  | zero =>
    intro i d q h
    have hq : q = [] := by
      cases q with
      | nil => rfl
      | cons a b => simp at h
    subst hq
    simp [sweepAllF]
  | succ n ih =>
    intro i d q h
    cases q with
    | nil => simp [sweepAllF]
    | cons pr rest =>
      obtain ⟨p, pots⟩ := pr
      simp only [sweepAllF]
      have hlen := sweepOne_length (sweepLabels pots i) d
      simp only [List.length_cons] at h
      have hrec := ih i (sweepOne d (sweepLabels pots i)).1
        (rest ++ (sweepOne d (sweepLabels pots i)).2) (by
          simp only [List.length_append]
          omega)
      exact hrec.trans (sweepOne_sublist (sweepLabels pots i) d)

/-- A successful candidate-level loop only moves values between the dict
and the round, and leaves a sub-dict behind. -/
theorem putLoopAux_spec :
    ∀ (fuel : Nat) (pots0 : Pots) (idx : Nat) (d : LabelDict)
      (disp : List (FsPath × Pots)) (lvl : Int)
      (disp' : List (FsPath × Pots)) (d' : LabelDict),
      putLoopAux pots0 fuel idx d disp = some (lvl, disp', d') →
      (d'.map Prod.snd ++ disp'.map Prod.fst).Perm
        (d.map Prod.snd ++ disp.map Prod.fst) ∧
      d'.Sublist d := by
  intro fuel
  induction fuel with
  | zero =>
    intro pots0 idx d disp lvl disp' d' h
    simp [putLoopAux] at h
  | succ n ih =>
    intro pots0 idx d disp lvl disp' d' h
    rw [putLoopAux] at h
    by_cases hidx : pots0.length ≤ idx
    · rw [if_pos hidx] at h
      exact Option.noConfusion h
    · rw [if_neg hidx] at h
      set i : Int :=
        if disp.any (fun pr => decide (pr.2.length - 1 ≤ idx)) then -1 else (idx : Int) with hi
      by_cases hok : (disp.map (fun pr => potsAt pr.2 i)).dedup.length = disp.length ∧
          ∀ l ∈ disp.map (fun pr => potsAt pr.2 i), assocFind d l = none
      · rw [if_pos hok] at h
        injection h with h1
        injection h1 with hlvl h2
        injection h2 with hdisp hd
        subst hdisp
        subst hd
        exact ⟨List.Perm.refl _, List.Sublist.refl _⟩
      · rw [if_neg hok] at h
        have hrec := ih pots0 (idx + 1)
          (sweepAllF (d.length + disp.length) i d disp).1
          (sweepAllF (d.length + disp.length) i d disp).2 lvl disp' d' h
        have hperm := sweepAllF_perm (d.length + disp.length) i d disp (le_refl _)
        have hsub := sweepAllF_sublist (d.length + disp.length) i d disp (le_refl _)
        exact ⟨hrec.1.trans hperm, hrec.2.trans hsub⟩

/-- A successful placement appends exactly the round's members as values
and keeps the label keys duplicate-free. -/
theorem placeAll_spec :
    ∀ (l : List (FsPath × Pots)) (d : LabelDict) (level : Int) (d' : LabelDict),
      placeAll d level l = some d' →
      d'.map Prod.snd = d.map Prod.snd ++ l.map Prod.fst ∧
      ((d.map Prod.fst).Nodup → (d'.map Prod.fst).Nodup) := by
  intro l
  induction l with
  | nil =>
    intro d level d' h
    simp only [placeAll] at h
    injection h with h1
    subst h1
    simp
  | cons pr rest ih =>
    intro d level d' h
    rcases hf : assocFind d (potsAt pr.2 level) with _ | entry
    · rw [show placeAll d level (pr :: rest) =
          placeAll (d ++ [(potsAt pr.2 level, pr.1)]) level rest from by
        simp [placeAll, hf]] at h
      have hrec := ih (d ++ [(potsAt pr.2 level, pr.1)]) level d' h
      constructor
      · rw [hrec.1]
        simp
      · intro hnd
        apply hrec.2
        simp only [List.map_append, List.map_cons, List.map_nil]
        rw [List.nodup_append]
        refine ⟨hnd, List.nodup_singleton _, ?_⟩
        intro x hx hx'
        simp only [List.mem_singleton] at hx'
        subst hx'
        rw [assocFind_eq_none] at hf
        exact hf hx
    · rw [show placeAll d level (pr :: rest) = none from by simp [placeAll, hf]] at h
      exact Option.noConfusion h

/-- A successful `put` adds exactly the new node as a value and keeps
the labels duplicate-free. -/
theorem put_spec (d : LabelDict) (new : FsPath) (d' : LabelDict)
    (h : put d new = some d') :
    (d'.map Prod.snd).Perm (d.map Prod.snd ++ [new]) ∧
    ((d.map Prod.fst).Nodup → (d'.map Prod.fst).Nodup) := by
  unfold put at h
  rcases hp : putLoopAux (get_potential new) (get_potential new).length 0 d
      [(new, get_potential new)] with _ | res
  · rw [hp] at h
    exact Option.noConfusion h
  · rw [hp] at h
    obtain ⟨lvl, disp, d1⟩ := res
    have hloop := putLoopAux_spec _ _ _ _ _ _ _ _ hp
    have hplace := placeAll_spec disp d1 lvl d' h
    constructor
    · rw [hplace.1]
      simpa using hloop.1
    · intro hnd
      exact hplace.2 ((hloop.2.map Prod.fst).nodup hnd)

/-- Folding `put` over a node list appends exactly those nodes as values
and keeps the labels duplicate-free. -/
theorem assign_labels_fold_spec :
    ∀ (es : List FsPath) (d : LabelDict) (d' : LabelDict),
      assign_labels_fold d es = some d' →
      (d'.map Prod.snd).Perm (d.map Prod.snd ++ es) ∧
      ((d.map Prod.fst).Nodup → (d'.map Prod.fst).Nodup) := by
  intro es
  induction es with
  | nil =>
    intro d d' h
    simp only [assign_labels_fold] at h
    injection h with h1
    subst h1
    simp
  | cons p rest ih =>
    intro d d' h
    rcases hp : put d p with _ | d1
    · rw [show assign_labels_fold d (p :: rest) = none from by
        simp [assign_labels_fold, hp]] at h
      exact Option.noConfusion h
    · rw [show assign_labels_fold d (p :: rest) = assign_labels_fold d1 rest from by
        simp [assign_labels_fold, hp]] at h
      have h1 := put_spec d p d1 hp
      have h2 := ih d1 d' h
      refine ⟨?_, fun hnd => h2.2 (h1.2 hnd)⟩
      refine h2.1.trans ?_
      refine (h1.1.append_right rest).trans ?_
      rw [List.append_assoc]
      exact List.Perm.refl _

/-- Claim C1, amended: whenever `assign_labels` returns without error on
nodes with pairwise distinct paths, the produced mapping is total and
injective — its labels are pairwise distinct and its values are exactly
the input nodes, each appearing under exactly one label.  (The abort
case, however, is not confined to duplicated paths; see the
counterexample theorem.) -/
theorem assign_labels_total_injective
    (bins sos : List FsPath) (d : LabelDict)
    (hnd : (bins ++ sos).Nodup)
    (h : assign_labels bins sos = some d) :
    (d.map Prod.fst).Nodup ∧ (d.map Prod.snd).Perm (bins ++ sos) ∧
      (d.map Prod.snd).Nodup := by
  have hs := assign_labels_fold_spec (bins ++ sos) [] d h
  have hperm : (d.map Prod.snd).Perm (bins ++ sos) := by simpa using hs.1
  exact ⟨hs.2 (by simp), hperm, hperm.nodup_iff.mpr hnd⟩

/-- Witness for the amended C1: the spec's end-to-end example — one
binary `/bin/x` with libraries `/lib/libfoo.so.1.0` and
`/lib64/libc.so.6` — succeeds with labels `x`, `libfoo`, `libc`, and the
mapping is total and injective. -/
theorem assign_labels_total_injective_witness :
    (([["bin", "x"]] ++ [["lib", "libfoo.so.1.0"], ["lib64", "libc.so.6"]] :
        List FsPath)).Nodup ∧
    assign_labels [["bin", "x"]] [["lib", "libfoo.so.1.0"], ["lib64", "libc.so.6"]] =
      some [("x", ["bin", "x"]), ("libfoo", ["lib", "libfoo.so.1.0"]),
        ("libc", ["lib64", "libc.so.6"])] ∧
    (([("x", (["bin", "x"] : FsPath)), ("libfoo", ["lib", "libfoo.so.1.0"]),
        ("libc", ["lib64", "libc.so.6"])].map Prod.fst).Nodup ∧
      ([("x", (["bin", "x"] : FsPath)), ("libfoo", ["lib", "libfoo.so.1.0"]),
        ("libc", ["lib64", "libc.so.6"])].map Prod.snd).Perm
        ([["bin", "x"]] ++ [["lib", "libfoo.so.1.0"], ["lib64", "libc.so.6"]]) ∧
      ([("x", (["bin", "x"] : FsPath)), ("libfoo", ["lib", "libfoo.so.1.0"]),
        ("libc", ["lib64", "libc.so.6"])].map Prod.snd).Nodup) :=
  ⟨by decide, by decide,
    assign_labels_total_injective [["bin", "x"]]
      [["lib", "libfoo.so.1.0"], ["lib64", "libc.so.6"]]
      [("x", ["bin", "x"]), ("libfoo", ["lib", "libfoo.so.1.0"]),
        ("libc", ["lib64", "libc.so.6"])]
      (by decide) (by decide)⟩

/-- Claim C1, counterexample: the three pairwise distinct paths `/b/a`,
`/b__a` and `/a` make `assign_labels` abort — the fully-qualified
fallback labels of `/b/a` and `/b__a` are both the string `b__a` (the
double-underscore join of path components is not injective), so the
claim that the procedure aborts only when two nodes share a path is
false. -/
theorem assign_labels_abort_distinct_paths :
    ((["b", "a"] : FsPath) ≠ ["b__a"] ∧ (["b", "a"] : FsPath) ≠ ["a"] ∧
      (["b__a"] : FsPath) ≠ ["a"]) ∧
    assign_labels [["b", "a"], ["b__a"], ["a"]] [] = none :=
  ⟨by decide, by decide⟩

/-- Claim C9: a successful placement round is uniform — either it
stopped at the fallback level `-1` and every member of the round
receives the last entry of its potential list (its fully-qualified
path-based label), or it stopped at a proper level and every member
receives a candidate strictly before its fallback entry.  No round
assigns a short label to one member while forcing another to the long
fallback. -/
theorem put_round_uniform_fallback
    (fuel : Nat) (pots0 : Pots) (idx : Nat) (d : LabelDict)
    (disp : List (FsPath × Pots)) (lvl : Int)
    (disp' : List (FsPath × Pots)) (d' : LabelDict)
    (h : putLoopAux pots0 fuel idx d disp = some (lvl, disp', d')) :
    (lvl = -1 ∧ ∀ pr ∈ disp', potsAt pr.2 lvl = pr.2.getLastD ("")) ∨
    (0 ≤ lvl ∧ ∀ pr ∈ disp', lvl.toNat + 1 < pr.2.length) := by
  induction fuel generalizing idx d disp with
  | zero => simp [putLoopAux] at h
  | succ n ih =>
    rw [putLoopAux] at h
    by_cases hidx : pots0.length ≤ idx
    · rw [if_pos hidx] at h
      exact Option.noConfusion h
    · rw [if_neg hidx] at h
      set i : Int :=
        if disp.any (fun pr => decide (pr.2.length - 1 ≤ idx)) then -1 else (idx : Int)
        with hi
      by_cases hok : (disp.map (fun pr => potsAt pr.2 i)).dedup.length = disp.length ∧
          ∀ l ∈ disp.map (fun pr => potsAt pr.2 i), assocFind d l = none
      · rw [if_pos hok] at h
        injection h with h1
        injection h1 with hlvl h2
        injection h2 with hdisp hd
        subst hdisp
        by_cases hany : disp.any (fun pr => decide (pr.2.length - 1 ≤ idx)) = true
        · left
          have hlvl2 : lvl = -1 := by
            rw [← hlvl, hi, if_pos hany]
          subst hlvl2
          refine ⟨rfl, ?_⟩
          intro pr _
          simp [potsAt]
        · right
          have hlvl2 : lvl = (idx : Int) := by
            rw [← hlvl, hi, if_neg hany]
          subst hlvl2
          refine ⟨by positivity, ?_⟩
          intro pr hpr
          simp only [Bool.not_eq_true, List.any_eq_false] at hany
          have hbound : ¬(pr.2.length - 1 ≤ idx) := by simpa using hany pr hpr
          simp only [Int.toNat_ofNat]
          omega
      · rw [if_neg hok] at h
        exact ih (idx + 1) _ _ h

/-- Witness for C9: the trivial round placing `/a` into an empty dict
stops at level `0`, which is strictly before the fallback entry of every
member of the round. -/
theorem put_round_uniform_fallback_witness :
    (((0 : Int) = -1 ∧ ∀ pr ∈ [((["a"] : FsPath), (["a", "a"] : Pots))],
        potsAt pr.2 0 = pr.2.getLastD ("")) ∨
      (0 ≤ (0 : Int) ∧ ∀ pr ∈ [((["a"] : FsPath), (["a", "a"] : Pots))],
        (0 : Int).toNat + 1 < pr.2.length)) :=
  put_round_uniform_fallback 2 ["a", "a"] 0 [] [(["a"], ["a", "a"])] 0
    [(["a"], ["a", "a"])] [] (by rfl)

/-- What `lddtree.ParseELF` reports for one needed library name: the
resolved path (or none) and the library's own needed names. -/
structure LibInfo where
  path : Option FsPath
  needed : List String
deriving DecidableEq

/-- The inspection result consumed by the graph-building part of
`process_file`: the interpreter path (if any), the library map in
iteration order, and the binary's needed names in declaration order. -/
structure ElfInfo where
  interp : Option FsPath
  libs : List (String × LibInfo)
  needed : List String
deriving DecidableEq

/-- The unresolved library names (the `skip` list, source lines
424-429), in map order; each is reported by a `crit` diagnostic. -/
def skip_names (libs : List (String × LibInfo)) : List String :=
  (libs.filter (fun pr => pr.2.path.isNone)).map Prod.fst

/-- `SharedObject(path, ...)` construction: run the symlink walk, no
dependency edges yet. -/
def build_so (fs : FS) (fuzzy : List FsPath) (fuel : Nat) (p : FsPath) :
    Option SharedObj :=
  (resolveLoop fs fuzzy fuel p [] []).map
    (fun r => ⟨r.canonical, [], r.aliases, r.is_fuzzy⟩)

/-- The interpreter entry (source lines 417-422): the interpreter, when
present, becomes a shared object keyed by its filename. -/
def build_interp (fs : FS) (fuzzy : List FsPath) (fuel : Nat) :
    Option FsPath → Option (List (String × SharedObj))
  | none => some []
  | some ip => (build_so fs fuzzy fuel ip).map (fun so => [(ip.getLastD (""), so)])

/-- The `libs` comprehension (source lines 431-437): resolve every
library whose name is not skipped. -/
def build_libs (fs : FS) (fuzzy : List FsPath) (fuel : Nat) (skip : List String) :
    List (String × LibInfo) → Option (List (String × SharedObj))
  | [] => some []
  | (n, info) :: rest =>
    if n ∈ skip then build_libs fs fuzzy fuel skip rest
    else
      match info.path with
      | none => none
      | some p =>
        match build_so fs fuzzy fuel p with
        | none => none
        | some so =>
          match build_libs fs fuzzy fuel skip rest with
          | none => none
          | some tail => some ((n, so) :: tail)

/-- Python `a | b` on dicts: keys of `a` keep their position but take
`b`'s value when overridden; new keys of `b` are appended. -/
def dict_union (a b : List (String × SharedObj)) : List (String × SharedObj) :=
  a.map (fun pr =>
    match assocFind b pr.1 with
    | some v => (pr.1, v)
    | none => pr) ++
  b.filter (fun pr => (assocFind a pr.1).isNone)

/-- `add_deps` (source lines 440-446): one dependency edge per needed
name not in `skip`, as `(name, declared path, canonical path)`; a name
missing from the maps is a Python `KeyError`, modelled `none`. -/
def build_dep_list (elibs : List (String × LibInfo))
    (libs : List (String × SharedObj)) (skip : List String) :
    List String → Option (List Dep)
  | [] => some []
  | n :: rest =>
    if n ∈ skip then build_dep_list elibs libs skip rest
    else
      match assocFind elibs n with
      | none => none
      | some info =>
        match info.path with
        | none => none
        | some asPath =>
          match assocFind libs n with
          | none => none
          | some so =>
            match build_dep_list elibs libs skip rest with
            | none => none
            | some tail => some ((n, asPath, so.path) :: tail)

/-- Fill in each library's own dependency edges (source line 448) from
`lib_dep_map[lib]["needed"]` (a `KeyError` when a `libs` key — e.g. the
interpreter — has no map entry). -/
def fill_deps (elibs : List (String × LibInfo))
    (fullLibs : List (String × SharedObj)) (skip : List String) :
    List (String × SharedObj) → Option (List (String × SharedObj))
  | [] => some []
  | (n, so) :: rest =>
    match assocFind elibs n with
    | none => none
    | some info =>
      match build_dep_list elibs fullLibs skip info.needed with
      | none => none
      | some deps =>
        match fill_deps elibs fullLibs skip rest with
        | none => none
        | some tail => some ((n, { so with deps := deps }) :: tail)

/-- What the dependency-graph part of `process_file` produces: the
binary node, the pass's libraries with their edges filled in, and the
per-name diagnostics (the skipped names). -/
structure ProcResult where
  bin : Bin
  libs : List (String × SharedObj)
  diags : List String
deriving DecidableEq

/-- Embedding of the dependency-graph portion of `process_file` (source
lines 403-457), taking the `ParseELF` output as input: unresolved names
are diagnosed and skipped; the remaining libraries plus the interpreter
are resolved into shared objects; every library's and the binary's
dependency edges are built with the skipped names excluded; the
binary's dep-name list is `needed` plus the interpreter name when not
already in `needed`.  (The trailing `store.add` loop of line 455 is the
`storeAdd` fold and is not part of this per-file result.) -/
def process_file (fs : FS) (fuzzy : List FsPath) (fuel : Nat)
    (binPath : FsPath) (elf : ElfInfo) : Option ProcResult :=
  match build_interp fs fuzzy fuel elf.interp with
  | none => none
  | some interp =>
    match build_libs fs fuzzy fuel (skip_names elf.libs) elf.libs with
    | none => none
    | some libs0 =>
      match fill_deps elf.libs (dict_union libs0 interp) (skip_names elf.libs)
          (dict_union libs0 interp) with
      | none => none
      | some libsFilled =>
        match build_dep_list elf.libs (dict_union libs0 interp) (skip_names elf.libs)
            (elf.needed ++
              (interp.map Prod.fst).filter (fun l => decide (l ∉ elf.needed))) with
        | none => none
        | some binDeps =>
          some ⟨⟨binPath, binDeps⟩, libsFilled, skip_names elf.libs⟩

/-- Edges built by `add_deps` never carry a skipped name. -/
theorem build_dep_list_not_skip (elibs : List (String × LibInfo))
    (libs : List (String × SharedObj)) (skip : List String) :
    ∀ (ns : List String) (l : List Dep),
      build_dep_list elibs libs skip ns = some l →
      ∀ dep ∈ l, dep.1 ∉ skip := by
  intro ns
  induction ns with
  | nil =>
    intro l h
    simp only [build_dep_list] at h
    injection h with h1
    subst h1
    intro dep hdep
    simp at hdep
  | cons n rest ih =>
    intro l h
    by_cases hn : n ∈ skip
    · rw [show build_dep_list elibs libs skip (n :: rest) =
          build_dep_list elibs libs skip rest from by
        simp [build_dep_list, hn]] at h
      exact ih l h
    · rcases h1 : assocFind elibs n with _ | info
      · rw [show build_dep_list elibs libs skip (n :: rest) = none from by
          simp [build_dep_list, hn, h1]] at h
        exact Option.noConfusion h
      · rcases h2 : info.path with _ | asPath
        · rw [show build_dep_list elibs libs skip (n :: rest) = none from by
            simp [build_dep_list, hn, h1, h2]] at h
          exact Option.noConfusion h
        · rcases h3 : assocFind libs n with _ | so
          · rw [show build_dep_list elibs libs skip (n :: rest) = none from by
              simp [build_dep_list, hn, h1, h2, h3]] at h
            exact Option.noConfusion h
          · rcases h4 : build_dep_list elibs libs skip rest with _ | tail
            · rw [show build_dep_list elibs libs skip (n :: rest) = none from by
                simp [build_dep_list, hn, h1, h2, h3, h4]] at h
              exact Option.noConfusion h
            · rw [show build_dep_list elibs libs skip (n :: rest) =
                  some ((n, asPath, so.path) :: tail) from by
                simp [build_dep_list, hn, h1, h2, h3, h4]] at h
              injection h with h5
              subst h5
              intro dep hdep
              rcases List.mem_cons.mp hdep with hdep | hdep
              · subst hdep
                exact hn
              · exact ih tail h4 dep hdep

/-- Every non-skipped name in the dep-name list yields an edge. -/
theorem build_dep_list_covers (elibs : List (String × LibInfo))
    (libs : List (String × SharedObj)) (skip : List String) :
    ∀ (ns : List String) (l : List Dep),
      build_dep_list elibs libs skip ns = some l →
      ∀ n ∈ ns, n ∉ skip → ∃ ap cp, (n, ap, cp) ∈ l := by
  intro ns
  induction ns with
  | nil =>
    intro l h n hn
    simp at hn
  | cons m rest ih =>
    intro l h n hn hnskip
    by_cases hm : m ∈ skip
    · rw [show build_dep_list elibs libs skip (m :: rest) =
          build_dep_list elibs libs skip rest from by
        simp [build_dep_list, hm]] at h
      rcases List.mem_cons.mp hn with hn | hn
      · subst hn
        exact absurd hm hnskip
      · exact ih l h n hn hnskip
    · rcases h1 : assocFind elibs m with _ | info
      · rw [show build_dep_list elibs libs skip (m :: rest) = none from by
          simp [build_dep_list, hm, h1]] at h
        exact Option.noConfusion h
      · rcases h2 : info.path with _ | asPath
        · rw [show build_dep_list elibs libs skip (m :: rest) = none from by
            simp [build_dep_list, hm, h1, h2]] at h
          exact Option.noConfusion h
        · rcases h3 : assocFind libs m with _ | so
          · rw [show build_dep_list elibs libs skip (m :: rest) = none from by
              simp [build_dep_list, hm, h1, h2, h3]] at h
            exact Option.noConfusion h
          · rcases h4 : build_dep_list elibs libs skip rest with _ | tail
            · rw [show build_dep_list elibs libs skip (m :: rest) = none from by
                simp [build_dep_list, hm, h1, h2, h3, h4]] at h
              exact Option.noConfusion h
            · rw [show build_dep_list elibs libs skip (m :: rest) =
                  some ((m, asPath, so.path) :: tail) from by
                simp [build_dep_list, hm, h1, h2, h3, h4]] at h
              injection h with h5
              subst h5
              rcases List.mem_cons.mp hn with hn | hn
              · subst hn
                exact ⟨asPath, so.path, List.mem_cons_self _ _⟩
              · obtain ⟨ap, cp, hmem⟩ := ih tail h4 n hn hnskip
                exact ⟨ap, cp, List.mem_cons_of_mem _ hmem⟩

/-- Libraries with filled edges never carry a skipped name either. -/
theorem fill_deps_not_skip (elibs : List (String × LibInfo))
    (fullLibs : List (String × SharedObj)) (skip : List String) :
    ∀ (ls out : List (String × SharedObj)),
      fill_deps elibs fullLibs skip ls = some out →
      ∀ pr ∈ out, ∀ dep ∈ pr.2.deps, dep.1 ∉ skip := by
  intro ls
  induction ls with
  | nil =>
    intro out h
    simp only [fill_deps] at h
    injection h with h1
    subst h1
    intro pr hpr
    simp at hpr
  | cons hd rest ih =>
    intro out h
    obtain ⟨n, so⟩ := hd
    rcases h1 : assocFind elibs n with _ | info
    · rw [show fill_deps elibs fullLibs skip ((n, so) :: rest) = none from by
        simp [fill_deps, h1]] at h
      exact Option.noConfusion h
    · rcases h2 : build_dep_list elibs fullLibs skip info.needed with _ | deps
      · rw [show fill_deps elibs fullLibs skip ((n, so) :: rest) = none from by
          simp [fill_deps, h1, h2]] at h
        exact Option.noConfusion h
      · rcases h3 : fill_deps elibs fullLibs skip rest with _ | tail
        · rw [show fill_deps elibs fullLibs skip ((n, so) :: rest) = none from by
            simp [fill_deps, h1, h2, h3]] at h
          exact Option.noConfusion h
        · rw [show fill_deps elibs fullLibs skip ((n, so) :: rest) =
              some ((n, { so with deps := deps }) :: tail) from by
            simp [fill_deps, h1, h2, h3]] at h
          injection h with h4
          subst h4
          intro pr hpr
          rcases List.mem_cons.mp hpr with hpr | hpr
          · subst hpr
            intro dep hdep
            exact build_dep_list_not_skip elibs fullLibs skip info.needed deps h2 dep hdep
          · exact ih tail h3 pr hpr

/-- Claim C8: an unresolvable needed library name `u` does not fail the
run: it is diagnosed, the dependency edge for `u` is excluded from the
binary and from every library built in the pass, and every other
(resolvable) needed name still gets its edge. -/
theorem unresolved_dep_dropped
    (fs : FS) (fuzzy : List FsPath) (fuel : Nat) (binPath : FsPath)
    (elf : ElfInfo) (u : String) (info : LibInfo) (r : ProcResult)
    (hmem : (u, info) ∈ elf.libs) (hnone : info.path = none)
    (hrun : process_file fs fuzzy fuel binPath elf = some r) :
    u ∈ r.diags ∧
    (∀ dep ∈ r.bin.deps, dep.1 ≠ u) ∧
    (∀ pr ∈ r.libs, ∀ dep ∈ pr.2.deps, dep.1 ≠ u) ∧
    (∀ n ∈ elf.needed, n ∉ skip_names elf.libs →
      ∃ ap cp, (n, ap, cp) ∈ r.bin.deps) := by
  have hu : u ∈ skip_names elf.libs := by
    unfold skip_names
    rw [List.mem_map]
    exact ⟨(u, info), List.mem_filter.mpr ⟨hmem, by simp [hnone]⟩, rfl⟩
  rcases e1 : build_interp fs fuzzy fuel elf.interp with _ | interp
  · rw [show process_file fs fuzzy fuel binPath elf = none from by
      simp only [process_file, e1]] at hrun
    exact Option.noConfusion hrun
  · rcases e2 : build_libs fs fuzzy fuel (skip_names elf.libs) elf.libs with _ | libs0
    · rw [show process_file fs fuzzy fuel binPath elf = none from by
        simp only [process_file, e1, e2]] at hrun
      exact Option.noConfusion hrun
    · rcases e3 : fill_deps elf.libs (dict_union libs0 interp) (skip_names elf.libs)
          (dict_union libs0 interp) with _ | libsFilled
      · rw [show process_file fs fuzzy fuel binPath elf = none from by
          simp only [process_file, e1, e2, e3]] at hrun
        exact Option.noConfusion hrun
      · rcases e4 : build_dep_list elf.libs (dict_union libs0 interp)
            (skip_names elf.libs)
            (elf.needed ++
              (interp.map Prod.fst).filter (fun l => decide (l ∉ elf.needed)))
            with _ | binDeps
        · rw [show process_file fs fuzzy fuel binPath elf = none from by
            simp only [process_file, e1, e2, e3, e4]] at hrun
          exact Option.noConfusion hrun
        · rw [show process_file fs fuzzy fuel binPath elf =
              some ⟨⟨binPath, binDeps⟩, libsFilled, skip_names elf.libs⟩ from by
            simp only [process_file, e1, e2, e3, e4]] at hrun
          injection hrun with h5
          subst h5
          refine ⟨hu, ?_, ?_, ?_⟩
          · intro dep hdep heq
            have := build_dep_list_not_skip _ _ _ _ _ e4 dep hdep
            rw [heq] at this
            exact this hu
          · intro pr hpr dep hdep heq
            have := fill_deps_not_skip _ _ _ _ _ e3 pr hpr dep hdep
            rw [heq] at this
            exact this hu
          · intro n hn hnskip
            exact build_dep_list_covers _ _ _ _ _ e4 n
              (List.mem_append_left _ hn) hnskip

/-- Witness for C8: a binary needing the resolvable `liba.so` and the
unresolvable `libmissing.so` processes successfully with the missing
edge dropped, the diagnostic emitted, and `liba.so`'s edge present. -/
theorem unresolved_dep_dropped_witness :
    (("libmissing.so", (⟨none, []⟩ : LibInfo)) ∈
      [("liba.so", (⟨some ["lib", "liba.so"], []⟩ : LibInfo)),
        ("libmissing.so", ⟨none, []⟩)]) ∧
    process_file ⟨[]⟩ [] 1 ["bin", "x"]
        ⟨none,
          [("liba.so", ⟨some ["lib", "liba.so"], []⟩),
            ("libmissing.so", ⟨none, []⟩)],
          ["liba.so", "libmissing.so"]⟩ =
      some ⟨⟨["bin", "x"], [("liba.so", ["lib", "liba.so"], ["lib", "liba.so"])]⟩,
        [("liba.so", ⟨["lib", "liba.so"], [], [], false⟩)], ["libmissing.so"]⟩ ∧
    ("libmissing.so" ∈
      (⟨⟨["bin", "x"], [("liba.so", ["lib", "liba.so"], ["lib", "liba.so"])]⟩,
        [("liba.so", ⟨["lib", "liba.so"], [], [], false⟩)],
        ["libmissing.so"]⟩ : ProcResult).diags ∧
      (∀ dep ∈ [(("liba.so" : String), (["lib", "liba.so"] : FsPath),
          (["lib", "liba.so"] : FsPath))], dep.1 ≠ "libmissing.so") ∧
      ∃ ap cp, (("liba.so" : String), ap, cp) ∈
        [(("liba.so" : String), (["lib", "liba.so"] : FsPath),
          (["lib", "liba.so"] : FsPath))]) := by
  refine ⟨by decide, by decide, ?_⟩
  have h := unresolved_dep_dropped ⟨[]⟩ [] 1 ["bin", "x"]
    ⟨none,
      [("liba.so", ⟨some ["lib", "liba.so"], []⟩), ("libmissing.so", ⟨none, []⟩)],
      ["liba.so", "libmissing.so"]⟩
    "libmissing.so" ⟨none, []⟩
    ⟨⟨["bin", "x"], [("liba.so", ["lib", "liba.so"], ["lib", "liba.so"])]⟩,
      [("liba.so", ⟨["lib", "liba.so"], [], [], false⟩)], ["libmissing.so"]⟩
    (by decide) (by decide) (by decide)
  exact ⟨h.1, h.2.1, h.2.2.2 ("liba.so") (by decide) (by decide)⟩

end HostLibs
